import Mathlib

set_option autoImplicit false

/- Shallow embedding of the Markov name generator of src/name_generator.py
   (class MarkovNameGenerator).  Strings are modelled as lists of
   characters, the transition table (self.chains, a defaultdict of
   Counters) as an insertion-ordered association list, and the weighted
   random draw of random.choices as a function of one natural number taken
   from an explicit stream, so that every reachable draw corresponds to
   some stream value. -/

abbrev Str := List Char

abbrev Counter := List (Char × Nat)

abbrev Chains := List (Str × Counter)

/-- Characters treated as whitespace by str.strip and by the regex class
backslash-s used in name cleaning and validation. -/
def isPySpace (c : Char) : Bool :=
  decide (c ∈ [' ', Char.ofNat 9, Char.ofNat 10, Char.ofNat 13, Char.ofNat 12, Char.ofNat 11])

/-- The letters accepted by the validators in the source: a-z, A-Z and the
Finnish and Swedish vowels with diacritics (the class [a-zA-ZäöåÄÖÅ]). -/
def isNameLetter (c : Char) : Bool :=
  decide (('a' ≤ c ∧ c ≤ 'z') ∨ ('A' ≤ c ∧ c ≤ 'Z') ∨ c ∈ ['ä', 'ö', 'å', 'Ä', 'Ö', 'Å'])

/-- Characters allowed in a raw training name by _is_valid_name: letters,
whitespace, hyphen, apostrophe. -/
def validNameChar (c : Char) : Bool :=
  isNameLetter c || isPySpace c || decide (c = '-') || decide (c = Char.ofNat 39)

def lookupPair : List (Char × Char) → Char → Option Char
  | [], _ => none
  | (a, b) :: rest, c => if c = a then some b else lookupPair rest c

/-- Upper-case to lower-case pairs for the alphabet the generator handles. -/
def casePairs : List (Char × Char) :=
  [('A','a'), ('B','b'), ('C','c'), ('D','d'), ('E','e'), ('F','f'), ('G','g'),
   ('H','h'), ('I','i'), ('J','j'), ('K','k'), ('L','l'), ('M','m'), ('N','n'),
   ('O','o'), ('P','p'), ('Q','q'), ('R','r'), ('S','s'), ('T','t'), ('U','u'),
   ('V','v'), ('W','w'), ('X','x'), ('Y','y'), ('Z','z'), ('Ä','ä'), ('Ö','ö'),
   ('Å','å')]

def casePairsUp : List (Char × Char) := List.map Prod.swap casePairs

/-- Models str.lower for the alphabet the generator handles; characters
without a case mapping in that alphabet pass through unchanged. -/
def pyLower (c : Char) : Char := (lookupPair casePairs c).getD c

/-- Models str.upper for the alphabet the generator handles. -/
def pyUpper (c : Char) : Char := (lookupPair casePairsUp c).getD c

/-- Models str.strip: remove leading and trailing whitespace. -/
def pyStrip (s : Str) : Str :=
  ((s.dropWhile isPySpace).reverse.dropWhile isPySpace).reverse

/-- Collapses every maximal whitespace run to a single space, as the
substitution of the regex backslash-s+ by one space does in _clean_name.
The flag records whether the previous character was whitespace. -/
def collapseGo : Bool → Str → Str
  | _, [] => []
  | prevSp, c :: rest =>
    if isPySpace c then
      (if prevSp then collapseGo true rest else ' ' :: collapseGo true rest)
    else c :: collapseGo false rest

/-- Models str.title for the generator's alphabet: a letter that follows a
non-letter is uppercased, a letter that follows a letter is lowercased.
The flag records whether the previous character was a letter. -/
def pyTitleGo : Bool → Str → Str
  | _, [] => []
  | prev, c :: rest =>
    (if prev then pyLower c else pyUpper c) :: pyTitleGo (isNameLetter c) rest

def pyTitle (s : Str) : Str := pyTitleGo false s

/-- Models _clean_name: strip, collapse whitespace runs, title-case. -/
def cleanName (nm : Str) : Str := pyTitle (collapseGo false (pyStrip nm))

/-- Models _is_valid_name: the stripped name is non-empty and consists of
letters, whitespace, hyphens and apostrophes. -/
def isValidName (nm : Str) : Bool :=
  !(pyStrip nm).isEmpty && (pyStrip nm).all validNameChar

/-- Models _is_valid_name_part: the stripped text is non-empty and
consists of letters only. -/
def isValidNamePart (t : Str) : Bool :=
  !(pyStrip t).isEmpty && (pyStrip t).all isNameLetter

/-- Models str.endswith: t is a suffix of s. -/
def strEndsWith (s t : Str) : Bool :=
  decide (List.take t.length s.reverse = t.reverse)

/-- The normalisation generate applies to its start_with and end_with
arguments: lower-case, then strip. -/
def cleanArg (s : Str) : Str := pyStrip (List.map pyLower s)

def counterGet (cnt : Counter) (c : Char) : Nat :=
  match cnt with
  | [] => 0
  | (c', w) :: rest => if c' = c then w else counterGet rest c

/-- Counter[c] += w: update in place if present, else append (insertion
order is preserved, as in a Python Counter). -/
def counterAdd (cnt : Counter) (c : Char) (w : Nat) : Counter :=
  match cnt with
  | [] => [(c, w)]
  | (c', w') :: rest =>
    if c' = c then (c', w' + w) :: rest else (c', w') :: counterAdd rest c w

def chainsGet? (ch : Chains) (ctx : Str) : Option Counter :=
  match ch with
  | [] => none
  | (ctx', cnt) :: rest => if ctx' = ctx then some cnt else chainsGet? rest ctx

/-- self.chains[ctx][c] += w on the defaultdict of Counters. -/
def chainsAdd (ch : Chains) (ctx : Str) (c : Char) (w : Nat) : Chains :=
  match ch with
  | [] => [(ctx, [(c, w)])]
  | (ctx', cnt) :: rest =>
    if ctx' = ctx then (ctx', counterAdd cnt c w) :: rest
    else (ctx', cnt) :: chainsAdd rest ctx c w

/-- The accumulated weight stored for context ctx and next character c
(0 when absent). -/
def chainsWeight (ch : Chains) (ctx : Str) (c : Char) : Nat :=
  match chainsGet? ch ctx with
  | none => 0
  | some cnt => counterGet cnt c

/-- All (context, next-character) windows of a padded name: the source
slides i over range(len(padded) - order), taking padded[i:i+order] as the
context and padded[i+order] as the target. -/
def windows (k : Nat) : Str → List (Str × Char)
  | [] => []
  | c :: rest =>
    match (c :: rest).drop k with
    | [] => []
    | t :: _ => (List.take k (c :: rest), t) :: windows k rest

/-- The padded form of a cleaned name: k start markers, the lowercased
cleaned name, one end marker. -/
def paddedForm (k : Nat) (cn : Str) : Str :=
  List.replicate k '^' ++ (List.map pyLower cn ++ ['$'])

structure Model where
  order : Nat
  chains : Chains
  names : List Str
deriving DecidableEq

def initModel (k : Nat) : Model := { order := k, chains := [], names := [] }

def addWindows (w : Nat) : Chains → List (Str × Char) → Chains
  | ch, [] => ch
  | ch, (ctx, c) :: rest => addWindows w (chainsAdd ch ctx c w) rest

/-- One training example: skipped entirely when invalid; otherwise the
cleaned name is appended to the retained list and every window of the
padded lowercased form adds the example weight to the table. -/
def trainStep (m : Model) (nm : Str) (w : Nat) : Model :=
  if isValidName nm then
    { m with
      names := m.names ++ [cleanName nm],
      chains := addWindows w m.chains (windows m.order (paddedForm m.order (cleanName nm))) }
  else m

def trainGo : Model → List (Str × Nat) → Model
  | m, [] => m
  | m, (nm, w) :: rest => trainGo (trainStep m nm w) rest

/-- Models train(names, weights): weights default to 1 per name, a length
mismatch raises, then self.names is reset (self.chains is NOT reset) and
each (name, weight) pair is processed in order. -/
def train (m : Model) (names : List Str) (weights : Option (List Nat)) : Except Unit Model :=
  match weights with
  | none => .ok (trainGo { m with names := [] } (names.zip (List.replicate names.length 1)))
  | some ws =>
    if names.length = ws.length then .ok (trainGo { m with names := [] } (names.zip ws))
    else .error ()

/-- Models _try_alternative_context: report whether any strict suffix of
the context (dropping 1 up to len-1 leading characters) is a key of the
table.  The found context itself is discarded by the source. -/
def tryAlternativeContext (ch : Chains) (ctx : Str) : Bool :=
  (List.range' 1 (ctx.length - 1)).any (fun i => (chainsGet? ch (ctx.drop i)).isSome)

def totalWeight (cnt : Counter) : Nat := (cnt.map Prod.snd).sum

def pickGo : Counter → Nat → Option Char
  | [], _ => none
  | (c, w) :: rest, r => if r < w then some c else pickGo rest (r - w)

/-- Models random.choices(chars, weights=weights): the stream value r
selects the character whose cumulative-weight interval contains r modulo
the total weight; a zero total weight gives none, modelling the ValueError
random.choices raises in that case. -/
def pickWeighted (cnt : Counter) (r : Nat) : Option Char :=
  if totalWeight cnt = 0 then none else pickGo cnt (r % totalWeight cnt)

def nextRand : List Nat → Nat × List Nat
  | [] => (0, [])
  | r :: rest => (r, rest)

/-- Initial sliding context: for a non-empty start string the last k
characters (the Python slice start_with[-k:], which for k = 0 is the whole
string), left-padded with start markers when the start string is shorter
than k; for an empty start string, k start markers. -/
def startCtx (k : Nat) (sw : Str) : Str :=
  if k ≤ sw.length then
    (if k = 0 then sw else sw.drop (sw.length - k))
  else List.replicate (k - sw.length) '^' ++ sw

inductive LoopRes where
  | done (name : Str) (ch : Chains) (rnd : List Nat)
  | redo (ch : Chains) (rnd : List Nat)
  | fail (ch : Chains)
deriving DecidableEq

def LoopRes.table : LoopRes → Chains
  | .done _ ch _ => ch
  | .redo ch _ => ch
  | .fail ch => ch

/-- The stepping loop of generate, running at most iters more iterations.
When the context is absent and _try_alternative_context merely reports
that a shorter context exists, the source still reads self.chains[context]
on a defaultdict, which inserts an empty Counter for the context; the
empty Counter then breaks the loop.  Sampling the end marker breaks when
the name is long enough, otherwise restarts the whole call (redo) when a
start string was given, or resets the in-progress name in place when not. -/
def genLoop (k m : Nat) (sw : Str) : Nat → Chains → Str → Str → List Nat → LoopRes
  | 0, ch, name, _ctx, rnd => .done name ch rnd
  | iters + 1, ch, name, ctx, rnd =>
    match chainsGet? ch ctx with
    | none =>
      if tryAlternativeContext ch ctx
      then .done name (ch ++ [(ctx, [])]) rnd
      else .done name ch rnd
    | some cnt =>
      if cnt = [] then .done name ch rnd
      else
        match pickWeighted cnt (nextRand rnd).1 with
        | none => .fail ch
        | some c =>
          if c = '$' then
            if m ≤ name.length then .done name ch (nextRand rnd).2
            else if sw = [] then
              genLoop k m sw iters ch [] (List.replicate k '^') (nextRand rnd).2
            else .redo ch (nextRand rnd).2
          else genLoop k m sw iters ch (name ++ [c]) (ctx.drop 1 ++ [c]) (nextRand rnd).2

inductive GenError where
  | modelNotTrained
  | invalidStart
  | invalidEnd
deriving DecidableEq

inductive GenRes where
  | out (s : Str) (ch : Chains)
  | spin (ch : Chains)
  | fail (ch : Chains)
  | err (e : GenError)
deriving DecidableEq

/-- The table after a generate call: unchanged on a validation error,
otherwise the table carried by the outcome. -/
def GenRes.tableOr : GenRes → Chains → Chains
  | .out _ ch, _ => ch
  | .spin ch, _ => ch
  | .fail ch, _ => ch
  | .err _, d => d

/-- The recursive core of generate, after argument validation, on already
cleaned start and end strings.  fuel bounds the recursion depth of the
source's self-calls (spin models indefinite recursion).  The source
re-runs its validation on each self-call; that re-validation is a no-op
because the self-call passes the already cleaned arguments (cleaning is
idempotent) and the table can only gain entries, hence stays non-empty.
When the loop ends with an empty name the source recurses and re-checks
the suffix on the recursive result; that re-check always passes because
the recursive call itself only returns suffix-satisfying names, so the
recursion is modelled directly. -/
def genAux (k M m : Nat) (sw ew : Str) : Nat → Chains → List Nat → GenRes
  | 0, ch, _ => .spin ch
  | fuel + 1, ch, rnd =>
    match genLoop k m sw (M - sw.length) ch sw (startCtx k sw) rnd with
    | .fail ch' => .fail ch'
    | .redo ch' rnd' => genAux k M m sw ew fuel ch' rnd'
    | .done name ch' rnd' =>
      if name = [] then genAux k M m sw ew fuel ch' rnd'
      else
        if pyTitle name ≠ [] ∧ ew ≠ [] ∧ strEndsWith (List.map pyLower (pyTitle name)) ew = false
        then genAux k M m sw ew fuel ch' rnd'
        else .out (pyTitle name) ch'

/-- Models generate(max_length, min_length, start_with, end_with): raises
when the table is empty, cleans and validates the start and end strings,
then runs the seeded stepping loop with retries. -/
def generate (k : Nat) (ch : Chains) (M m : Nat) (sw ew : Str)
    (fuel : Nat) (rnd : List Nat) : GenRes :=
  if ch = [] then .err .modelNotTrained
  else if cleanArg sw ≠ [] ∧ isValidNamePart (cleanArg sw) = false then .err .invalidStart
  else if cleanArg ew ≠ [] ∧ isValidNamePart (cleanArg ew) = false then .err .invalidEnd
  else genAux k M m (cleanArg sw) (cleanArg ew) fuel ch rnd

/-- Every key of the table has length k. -/
def keysLen (ch : Chains) (k : Nat) : Prop := ∀ e ∈ ch, (e.1 : Str).length = k

/-- Every stored weight is positive. -/
def posTable (ch : Chains) : Prop := ∀ e ∈ ch, ∀ p ∈ e.2, 0 < p.2

/-- No stored transition target is the start marker. -/
def noHatTargets (ch : Chains) : Prop := ∀ e ∈ ch, ∀ p ∈ e.2, p.1 ≠ '^'

/-- The per-window weighted multiplicity sum that the table actually
stores: for each valid example, its weight times the number of
occurrences of the (context, target) window in its padded form. -/
def windowWeight (k : Nat) (pairs : List (Str × Nat)) (ctx : Str) (c : Char) : Nat :=
  (pairs.map (fun p =>
    if isValidName p.1
    then p.2 * List.count (ctx, c) (windows k (paddedForm k (cleanName p.1)))
    else 0)).sum

/-- Modelled from the claim's words for comparison: the sum of the weights
of the training examples whose padded form contains the window at all,
each example counted once regardless of multiplicity. -/
def exampleWeight (k : Nat) (pairs : List (Str × Nat)) (ctx : Str) (c : Char) : Nat :=
  (pairs.map (fun p =>
    if isValidName p.1 ∧ (ctx, c) ∈ windows k (paddedForm k (cleanName p.1))
    then p.2
    else 0)).sum

theorem lookupPair_mem : ∀ (ps : List (Char × Char)) (c b : Char),
    lookupPair ps c = some b → (c, b) ∈ ps := by
  intro ps
  induction ps with
  | nil => intro c b h; simp [lookupPair] at h
  | cons p rest ih =>
    intro c b h
    obtain ⟨a, b'⟩ := p
    simp only [lookupPair] at h
    split at h
    · rename_i hc
      injection h with h
      subst hc; subst h
      exact List.mem_cons_self _ _
    · exact List.mem_cons_of_mem _ (ih c b h)

theorem pyLowerShape (c : Char) : pyLower c = c ∨ (c, pyLower c) ∈ casePairs := by
  unfold pyLower
  cases h : lookupPair casePairs c with
  | none => left; rfl
  | some b => right; simpa using lookupPair_mem _ _ _ h

theorem pyUpperShape (c : Char) : pyUpper c = c ∨ (pyUpper c, c) ∈ casePairs := by
  unfold pyUpper
  cases h : lookupPair casePairsUp c with
  | none => left; rfl
  | some b =>
    right
    have hm := lookupPair_mem _ _ _ h
    simp only [casePairsUp, List.mem_map] at hm
    obtain ⟨p, hp, hpe⟩ := hm
    obtain ⟨x, y⟩ := p
    simp only [Prod.swap_prod_mk, Prod.mk.injEq] at hpe
    obtain ⟨h1, h2⟩ := hpe
    subst h1; subst h2
    simpa using hp

theorem casePairsFacts : ∀ p ∈ casePairs,
    pyLower p.2 = p.2 ∧ pyLower p.1 = p.2 ∧
    isNameLetter p.1 = true ∧ isNameLetter p.2 = true ∧
    p.1 ≠ '^' ∧ p.2 ≠ '^' ∧ p.1 ≠ '$' ∧ p.2 ≠ '$' := by decide

theorem pyLower_pyLower (c : Char) : pyLower (pyLower c) = pyLower c := by
  rcases pyLowerShape c with h | h
  · rw [h, h]
  · exact (casePairsFacts _ h).1

theorem pyLower_pyUpper (c : Char) : pyLower (pyUpper c) = pyLower c := by
  rcases pyUpperShape c with h | h
  · rw [h]
  · have h1 := (casePairsFacts _ h).2.1
    have h2 := (casePairsFacts _ h).1
    rw [h1, h2]

theorem pyLower_ne_hat (c : Char) (h : c ≠ '^') : pyLower c ≠ '^' := by
  rcases pyLowerShape c with hs | hs
  · rw [hs]; exact h
  · exact (casePairsFacts _ hs).2.2.2.2.2.1

theorem pyLower_ne_dollar (c : Char) (h : c ≠ '$') : pyLower c ≠ '$' := by
  rcases pyLowerShape c with hs | hs
  · rw [hs]; exact h
  · exact (casePairsFacts _ hs).2.2.2.2.2.2.2

theorem pyUpper_ne_hat (c : Char) (h : c ≠ '^') : pyUpper c ≠ '^' := by
  rcases pyUpperShape c with hs | hs
  · rw [hs]; exact h
  · exact (casePairsFacts _ hs).2.2.2.2.1

theorem pyUpper_ne_dollar (c : Char) (h : c ≠ '$') : pyUpper c ≠ '$' := by
  rcases pyUpperShape c with hs | hs
  · rw [hs]; exact h
  · exact (casePairsFacts _ hs).2.2.2.2.2.2.1

theorem isNameLetter_pyLower (c : Char) (h : isNameLetter c = true) :
    isNameLetter (pyLower c) = true := by
  rcases pyLowerShape c with hs | hs
  · rw [hs]; exact h
  · exact (casePairsFacts _ hs).2.2.2.1

theorem isNameLetter_not_space (c : Char) (h : isNameLetter c = true) :
    isPySpace c = false := by
  by_contra hs
  rw [Bool.not_eq_false] at hs
  simp only [isPySpace, decide_eq_true_eq] at hs
  fin_cases hs <;> exact absurd h (by decide)

theorem isNameLetter_ne_markers (c : Char) (h : isNameLetter c = true) :
    c ≠ '^' ∧ c ≠ '$' := by
  constructor <;> rintro rfl <;> exact absurd h (by decide)

theorem validNameChar_ne_markers (c : Char) (h : validNameChar c = true) :
    c ≠ '^' ∧ c ≠ '$' := by
  constructor <;> rintro rfl <;> exact absurd h (by decide)

theorem pyTitleGo_length : ∀ (b : Bool) (s : Str), (pyTitleGo b s).length = s.length := by
  intro b s
  induction s generalizing b with
  | nil => rfl
  | cons c rest ih => simp [pyTitleGo, ih]

theorem pyTitleGo_map_pyLower : ∀ (b : Bool) (s : Str),
    List.map pyLower (pyTitleGo b s) = List.map pyLower s := by
  intro b s
  induction s generalizing b with
  | nil => rfl
  | cons c rest ih =>
    cases b <;> simp [pyTitleGo, ih, pyLower_pyLower, pyLower_pyUpper]

theorem pyTitleGo_mem : ∀ (b : Bool) (s : Str) (c : Char), c ∈ pyTitleGo b s →
    ∃ x ∈ s, c = pyLower x ∨ c = pyUpper x := by
  intro b s
  induction s generalizing b with
  | nil => intro c h; simp [pyTitleGo] at h
  | cons d rest ih =>
    intro c h
    simp only [pyTitleGo, List.mem_cons] at h
    rcases h with h | h
    · refine ⟨d, List.mem_cons_self _ _, ?_⟩
      cases b
      · simp only [Bool.false_eq_true, if_false] at h
        exact Or.inr h
      · simp only [if_true] at h
        exact Or.inl h
    · obtain ⟨x, hx, hc⟩ := ih _ c h
      exact ⟨x, List.mem_cons_of_mem _ hx, hc⟩

theorem collapseGo_mem : ∀ (b : Bool) (s : Str) (c : Char), c ∈ collapseGo b s →
    c = ' ' ∨ c ∈ s := by
  intro b s
  induction s generalizing b with
  | nil => intro c h; simp [collapseGo] at h
  | cons d rest ih =>
    intro c h
    simp only [collapseGo] at h
    split at h
    · split at h
      · rcases ih _ c h with h' | h'
        · exact Or.inl h'
        · exact Or.inr (List.mem_cons_of_mem _ h')
      · rcases List.mem_cons.mp h with h' | h'
        · exact Or.inl h'
        · rcases ih _ c h' with h'' | h''
          · exact Or.inl h''
          · exact Or.inr (List.mem_cons_of_mem _ h'')
    · rcases List.mem_cons.mp h with h' | h'
      · exact Or.inr (h' ▸ List.mem_cons_self _ _)
      · rcases ih _ c h' with h'' | h''
        · exact Or.inl h''
        · exact Or.inr (List.mem_cons_of_mem _ h'')

theorem mem_of_mem_dropWhile {p : Char → Bool} :
    ∀ (s : Str) (c : Char), c ∈ s.dropWhile p → c ∈ s := by
  intro s c h
  induction s with
  | nil => exact h
  | cons d rest ih =>
    rw [List.dropWhile_cons] at h
    split at h
    · exact List.mem_cons_of_mem _ (ih h)
    · exact h

theorem mem_of_mem_pyStrip (s : Str) (c : Char) (h : c ∈ pyStrip s) : c ∈ s := by
  unfold pyStrip at h
  rw [List.mem_reverse] at h
  have h1 := mem_of_mem_dropWhile _ _ h
  rw [List.mem_reverse] at h1
  exact mem_of_mem_dropWhile _ _ h1

theorem dropWhile_all_false {p : Char → Bool} (s : Str) (h : ∀ c ∈ s, p c = false) :
    s.dropWhile p = s := by
  cases s with
  | nil => rfl
  | cons c rest => simp [List.dropWhile_cons, h c (List.mem_cons_self _ _)]

theorem dropWhile_append_eq {p : Char → Bool} : ∀ (s : Str), ∃ w, s = w ++ s.dropWhile p := by
  intro s
  induction s with
  | nil => exact ⟨[], rfl⟩
  | cons c rest ih =>
    by_cases hc : p c = true
    · obtain ⟨w, hw⟩ := ih
      refine ⟨c :: w, ?_⟩
      rw [List.dropWhile_cons, if_pos hc, List.cons_append]
      exact congrArg (c :: ·) hw
    · refine ⟨[], ?_⟩
      rw [List.dropWhile_cons, if_neg hc, List.nil_append]

theorem dropWhile_head_false {p : Char → Bool} : ∀ (s : Str),
    s.dropWhile p = [] ∨ ∃ c t, s.dropWhile p = c :: t ∧ p c = false := by
  intro s
  induction s with
  | nil => exact Or.inl rfl
  | cons c rest ih =>
    by_cases hc : p c = true
    · rw [List.dropWhile_cons, if_pos hc]
      exact ih
    · rw [List.dropWhile_cons, if_neg hc]
      exact Or.inr ⟨c, rest, rfl, Bool.not_eq_true _ ▸ Bool.of_not_eq_true hc⟩

theorem dropWhile_idem {p : Char → Bool} (s : Str) :
    (s.dropWhile p).dropWhile p = s.dropWhile p := by
  rcases dropWhile_head_false (p := p) s with h | ⟨c, t, h, hc⟩
  · rw [h]; rfl
  · rw [h, List.dropWhile_cons, if_neg (by simp [hc])]

theorem pyStrip_dropWhile (s : Str) : (pyStrip s).dropWhile isPySpace = pyStrip s := by
  rcases dropWhile_head_false (p := isPySpace) s with h0 | ⟨c, t, h0, hc⟩
  · have hnil : pyStrip s = [] := by
      unfold pyStrip
      rw [h0]
      rfl
    rw [hnil]
    rfl
  · obtain ⟨w, hw⟩ :=
      dropWhile_append_eq (p := isPySpace) (s.dropWhile isPySpace).reverse
    have hu : s.dropWhile isPySpace = pyStrip s ++ w.reverse := by
      unfold pyStrip
      have h2 := congrArg List.reverse hw
      rw [List.reverse_reverse, List.reverse_append] at h2
      exact h2
    cases ht : pyStrip s with
    | nil => rfl
    | cons d t' =>
      rw [ht, h0, List.cons_append] at hu
      injection hu with hd _
      rw [List.dropWhile_cons, if_neg (by rw [← hd, hc]; exact Bool.false_ne_true)]

theorem pyStrip_idem (s : Str) : pyStrip (pyStrip s) = pyStrip s := by
  show (((pyStrip s).dropWhile isPySpace).reverse.dropWhile isPySpace).reverse = pyStrip s
  rw [pyStrip_dropWhile]
  have h3 : (pyStrip s).reverse = (s.dropWhile isPySpace).reverse.dropWhile isPySpace := by
    unfold pyStrip
    rw [List.reverse_reverse]
  rw [h3, dropWhile_idem]
  rfl

theorem pyStrip_letters (s : Str) (h : s.all isNameLetter = true) : pyStrip s = s := by
  have hs : ∀ c ∈ s, isPySpace c = false := fun c hc =>
    isNameLetter_not_space c (List.all_eq_true.mp h c hc)
  unfold pyStrip
  rw [dropWhile_all_false s hs,
      dropWhile_all_false s.reverse (fun c hc => hs c (List.mem_reverse.mp hc)),
      List.reverse_reverse]

theorem map_pyLower_letters (s : Str) (h : s.all isNameLetter = true) :
    (List.map pyLower s).all isNameLetter = true := by
  rw [List.all_eq_true] at *
  intro c hc
  rw [List.mem_map] at hc
  obtain ⟨x, hx, hxe⟩ := hc
  exact hxe ▸ isNameLetter_pyLower x (h x hx)

theorem cleanArg_letters (s : Str) (h : s.all isNameLetter = true) :
    cleanArg s = List.map pyLower s := by
  unfold cleanArg
  exact pyStrip_letters _ (map_pyLower_letters s h)

theorem pickGo_mem : ∀ (cnt : Counter) (r : Nat) (c : Char),
    pickGo cnt r = some c → ∃ w, (c, w) ∈ cnt ∧ 0 < w := by
  intro cnt
  induction cnt with
  | nil => intro r c h; simp [pickGo] at h
  | cons p rest ih =>
    intro r c h
    obtain ⟨c', w⟩ := p
    simp only [pickGo] at h
    split at h
    · rename_i hr
      injection h with h
      subst h
      exact ⟨w, List.mem_cons_self _ _, Nat.lt_of_le_of_lt (Nat.zero_le r) hr⟩
    · obtain ⟨w', hw', hpos⟩ := ih _ _ h
      exact ⟨w', List.mem_cons_of_mem _ hw', hpos⟩

theorem pickGo_total : ∀ (cnt : Counter) (r : Nat), r < totalWeight cnt →
    ∃ c, pickGo cnt r = some c := by
  intro cnt
  induction cnt with
  | nil => intro r h; simp [totalWeight] at h
  | cons p rest ih =>
    intro r h
    obtain ⟨c, w⟩ := p
    simp only [pickGo]
    by_cases hr : r < w
    · exact ⟨c, by rw [if_pos hr]⟩
    · have hlt : r - w < totalWeight rest := by
        simp only [totalWeight, List.map_cons, List.sum_cons] at h
        simp only [totalWeight]
        omega
      obtain ⟨c', hc'⟩ := ih _ hlt
      exact ⟨c', by rw [if_neg hr]; exact hc'⟩

theorem pickWeighted_mem (cnt : Counter) (r : Nat) (c : Char)
    (h : pickWeighted cnt r = some c) : ∃ w, (c, w) ∈ cnt ∧ 0 < w := by
  unfold pickWeighted at h
  split at h
  · exact absurd h (by simp)
  · exact pickGo_mem _ _ _ h

theorem pickWeighted_total (cnt : Counter) (r : Nat)
    (hpos : ∀ p ∈ cnt, 0 < p.2) (hne : cnt ≠ []) :
    ∃ c, pickWeighted cnt r = some c := by
  have ht : 0 < totalWeight cnt := by
    cases cnt with
    | nil => exact absurd rfl hne
    | cons p rest =>
      have hp := hpos p (List.mem_cons_self _ _)
      simp only [totalWeight, List.map_cons, List.sum_cons]
      omega
  unfold pickWeighted
  rw [if_neg (by omega)]
  exact pickGo_total _ _ (Nat.mod_lt _ ht)

theorem mem_drop_mono {α : Type} (c : α) : ∀ (j : Nat) (l : List α),
    c ∈ l.drop (j + 1) → c ∈ l.drop j := by
  intro j
  induction j with
  | zero =>
    intro l h
    cases l with
    | nil => exact h
    | cons d rest =>
      refine List.mem_cons_of_mem _ ?_
      simpa using h
  | succ j ih =>
    intro l h
    cases l with
    | nil => exact h
    | cons d rest =>
      simp only [List.drop_succ_cons] at h ⊢
      exact ih rest h

theorem windows_key_length (k : Nat) : ∀ (s ctx : Str) (c : Char),
    (ctx, c) ∈ windows k s → ctx.length = k := by
  intro s
  induction s with
  | nil => intro ctx c h; simp [windows] at h
  | cons d rest ih =>
    intro ctx c h
    simp only [windows] at h
    split at h
    · simp at h
    · rename_i t ts hdrop
      rcases List.mem_cons.mp h with h' | h'
      · have hlen := congrArg List.length hdrop
        simp only [List.length_drop, List.length_cons] at hlen
        rw [Prod.mk.injEq] at h'
        rw [h'.1, List.length_take, List.length_cons]
        omega
      · exact ih _ _ h'

theorem windows_target_mem (k : Nat) : ∀ (s ctx : Str) (c : Char),
    (ctx, c) ∈ windows k s → c ∈ s.drop k := by
  intro s
  induction s with
  | nil => intro ctx c h; simp [windows] at h
  | cons d rest ih =>
    intro ctx c h
    simp only [windows] at h
    split at h
    · simp at h
    · rename_i t ts hdrop
      rcases List.mem_cons.mp h with h' | h'
      · rw [Prod.mk.injEq] at h'
        rw [hdrop, h'.2]
        exact List.mem_cons_self _ _
      · have hmem := ih _ _ h'
        cases k with
        | zero =>
          refine List.mem_cons_of_mem _ ?_
          simpa using hmem
        | succ j =>
          rw [List.drop_succ_cons]
          exact mem_drop_mono _ _ _ hmem

theorem drop_replicate_append {α : Type} (a : α) : ∀ (k : Nat) (t : List α),
    (List.replicate k a ++ t).drop k = t := by
  intro k
  induction k with
  | zero => intro t; rfl
  | succ j ih =>
    intro t
    simp only [List.replicate_succ, List.cons_append, List.drop_succ_cons]
    exact ih t

theorem paddedForm_drop (k : Nat) (cn : Str) :
    (paddedForm k cn).drop k = List.map pyLower cn ++ ['$'] := by
  unfold paddedForm
  exact drop_replicate_append _ _ _

theorem counterGet_counterAdd : ∀ (cnt : Counter) (c : Char) (w : Nat) (d : Char),
    counterGet (counterAdd cnt c w) d = counterGet cnt d + (if c = d then w else 0) := by
  intro cnt c w d
  induction cnt with
  | nil => by_cases hcd : c = d <;> simp [counterAdd, counterGet, hcd]
  | cons p rest ih =>
    obtain ⟨e, we⟩ := p
    simp only [counterAdd]
    by_cases hec : e = c
    · rw [if_pos hec]
      subst hec
      by_cases hed : e = d <;> simp [counterGet, hed]
    · rw [if_neg hec]
      by_cases hed : e = d
      · have hcd : ¬ c = d := fun h => hec (h ▸ hed)
        simp [counterGet, hed, hcd]
      · simp [counterGet, hed, ih]

theorem chainsWeight_chainsAdd :
    ∀ (ch : Chains) (ctx : Str) (c : Char) (w : Nat) (ctx' : Str) (d : Char),
    chainsWeight (chainsAdd ch ctx c w) ctx' d
      = chainsWeight ch ctx' d + (if ctx = ctx' ∧ c = d then w else 0) := by
  intro ch ctx c w ctx' d
  induction ch with
  | nil =>
    by_cases hctx : ctx = ctx'
    · subst hctx
      by_cases hcd : c = d <;>
        simp [chainsAdd, chainsWeight, chainsGet?, counterGet, hcd]
    · simp [chainsAdd, chainsWeight, chainsGet?, hctx]
  | cons p rest ih =>
    obtain ⟨e, cnt⟩ := p
    simp only [chainsAdd]
    by_cases hec : e = ctx
    · rw [if_pos hec]
      subst hec
      by_cases hed : e = ctx'
      · subst hed
        simp [chainsWeight, chainsGet?, counterGet_counterAdd]
      · simp [chainsWeight, chainsGet?, hed, fun h : e = ctx' ∧ c = d => hed h.1]
    · rw [if_neg hec]
      by_cases hed : e = ctx'
      · subst hed
        have hne : ¬ (ctx = e ∧ c = d) := fun h => hec h.1.symm
        simp [chainsWeight, chainsGet?, hne]
      · simp only [chainsWeight, chainsGet?, if_neg hed]
        exact ih

theorem chainsWeight_addWindows :
    ∀ (ws : List (Str × Char)) (ch : Chains) (w : Nat) (ctx : Str) (d : Char),
    chainsWeight (addWindows w ch ws) ctx d
      = chainsWeight ch ctx d + w * List.count (ctx, d) ws := by
  intro ws
  induction ws with
  | nil => intro ch w ctx d; simp [addWindows]
  | cons p rest ih =>
    intro ch w ctx d
    obtain ⟨cx, c⟩ := p
    simp only [addWindows]
    rw [ih, chainsWeight_chainsAdd, List.count_cons]
    by_cases h : cx = ctx ∧ c = d
    · obtain ⟨h1, h2⟩ := h
      subst h1; subst h2
      simp
      ring
    · have hne : ¬ ((ctx, d) = (cx, c)) := by
        rw [Prod.mk.injEq]
        intro hx
        exact h ⟨hx.1.symm, hx.2.symm⟩
      rw [if_neg h]
      simp [hne]
      exact Or.inl (fun h1 h2 => h ⟨h1, h2⟩)

theorem trainGo_order : ∀ (pairs : List (Str × Nat)) (m : Model),
    (trainGo m pairs).order = m.order := by
  intro pairs
  induction pairs with
  | nil => intro m; rfl
  | cons p rest ih =>
    intro m
    obtain ⟨nm, w⟩ := p
    simp only [trainGo]
    rw [ih]
    unfold trainStep
    split <;> rfl

theorem chainsWeight_trainGo : ∀ (pairs : List (Str × Nat)) (m : Model) (ctx : Str) (d : Char),
    chainsWeight (trainGo m pairs).chains ctx d
      = chainsWeight m.chains ctx d + windowWeight m.order pairs ctx d := by
  intro pairs
  induction pairs with
  | nil => intro m ctx d; simp [trainGo, windowWeight]
  | cons p rest ih =>
    intro m ctx d
    obtain ⟨nm, w⟩ := p
    simp only [trainGo]
    rw [ih]
    unfold trainStep
    by_cases hv : isValidName nm
    · rw [if_pos hv]
      simp only [windowWeight, List.map_cons, List.sum_cons]
      rw [chainsWeight_addWindows]
      simp only [windowWeight, hv, if_pos]
      ring
    · rw [if_neg hv]
      simp only [windowWeight, List.map_cons, List.sum_cons, hv, if_neg]
      simp

theorem counterAdd_forall {P : Char × Nat → Prop} :
    ∀ (cnt : Counter) (c : Char) (w : Nat),
    (∀ p ∈ cnt, P p) → P (c, w) → (∀ e we, P (e, we) → P (e, we + w)) →
    ∀ p ∈ counterAdd cnt c w, P p := by
  intro cnt c w hcnt hnew hupd
  induction cnt with
  | nil =>
    intro p hp
    simp only [counterAdd, List.mem_singleton] at hp
    rw [hp]
    exact hnew
  | cons q rest ih =>
    obtain ⟨e, we⟩ := q
    intro p hp
    simp only [counterAdd] at hp
    split at hp
    · rcases List.mem_cons.mp hp with h | h
      · rw [h]
        exact hupd e we (hcnt _ (List.mem_cons_self _ _))
      · exact hcnt _ (List.mem_cons_of_mem _ h)
    · rcases List.mem_cons.mp hp with h | h
      · rw [h]; exact hcnt _ (List.mem_cons_self _ _)
      · exact ih (fun p' hp' => hcnt _ (List.mem_cons_of_mem _ hp')) p h

theorem chainsAdd_forall {Q : Str × Counter → Prop} :
    ∀ (ch : Chains) (ctx : Str) (c : Char) (w : Nat),
    (∀ e ∈ ch, Q e) →
    Q (ctx, [(c, w)]) →
    (∀ key cnt, Q (key, cnt) → Q (key, counterAdd cnt c w)) →
    ∀ e ∈ chainsAdd ch ctx c w, Q e := by
  intro ch ctx c w hch hnew hupd
  induction ch with
  | nil =>
    intro e he
    simp only [chainsAdd, List.mem_singleton] at he
    rw [he]
    exact hnew
  | cons q rest ih =>
    obtain ⟨key, cnt⟩ := q
    intro e he
    simp only [chainsAdd] at he
    split at he
    · rcases List.mem_cons.mp he with h | h
      · rw [h]
        exact hupd key cnt (hch _ (List.mem_cons_self _ _))
      · exact hch _ (List.mem_cons_of_mem _ h)
    · rcases List.mem_cons.mp he with h | h
      · rw [h]; exact hch _ (List.mem_cons_self _ _)
      · exact ih (fun e' he' => hch _ (List.mem_cons_of_mem _ he')) e h

theorem addWindows_forall {Q : Str × Counter → Prop} {w : Nat} :
    ∀ (ws : List (Str × Char)) (ch : Chains),
    (∀ e ∈ ch, Q e) →
    (∀ pr ∈ ws, ∀ ch' : Chains, (∀ e ∈ ch', Q e) → ∀ e ∈ chainsAdd ch' pr.1 pr.2 w, Q e) →
    ∀ e ∈ addWindows w ch ws, Q e := by
  intro ws
  induction ws with
  | nil => intro ch hch _ e he; exact hch e he
  | cons pr rest ih =>
    intro ch hch hstep e he
    obtain ⟨cx, c⟩ := pr
    simp only [addWindows] at he
    exact ih (chainsAdd ch cx c w)
      (hstep _ (List.mem_cons_self _ _) ch hch)
      (fun pr' hpr' => hstep pr' (List.mem_cons_of_mem _ hpr'))
      e he

theorem keysLen_trainGo : ∀ (pairs : List (Str × Nat)) (m : Model),
    keysLen m.chains m.order → keysLen (trainGo m pairs).chains m.order := by
  intro pairs
  induction pairs with
  | nil => intro m h; exact h
  | cons p rest ih =>
    intro m h
    obtain ⟨nm, w⟩ := p
    simp only [trainGo]
    have hstep : keysLen (trainStep m nm w).chains m.order := by
      unfold trainStep
      by_cases hv : isValidName nm
      · rw [if_pos hv]
        refine addWindows_forall _ _ h ?_
        intro pr hpr ch' hch'
        refine chainsAdd_forall _ _ _ _ hch' ?_ (fun key cnt hk => hk)
        exact windows_key_length _ _ _ _ hpr
      · rw [if_neg hv]; exact h
    have horder : (trainStep m nm w).order = m.order := by
      unfold trainStep
      split <;> rfl
    have := ih (trainStep m nm w)
    rw [horder] at this
    exact this hstep

theorem posTable_trainGo : ∀ (pairs : List (Str × Nat)) (m : Model),
    posTable m.chains → (∀ p ∈ pairs, 0 < p.2) → posTable (trainGo m pairs).chains := by
  intro pairs
  induction pairs with
  | nil => intro m h _; exact h
  | cons p rest ih =>
    intro m h hpos
    obtain ⟨nm, w⟩ := p
    have hw : 0 < w := hpos _ (List.mem_cons_self _ _)
    simp only [trainGo]
    refine ih (trainStep m nm w) ?_ (fun p' hp' => hpos _ (List.mem_cons_of_mem _ hp'))
    unfold trainStep
    by_cases hv : isValidName nm
    · rw [if_pos hv]
      refine addWindows_forall _ _ h ?_
      intro pr hpr ch' hch'
      refine chainsAdd_forall _ _ _ _ hch' ?_ ?_
      · intro q hq
        simp only [List.mem_singleton] at hq
        rw [hq]
        exact hw
      · intro key cnt hk
        refine counterAdd_forall _ _ _ hk hw ?_
        intro e we hp
        exact Nat.lt_of_lt_of_le hp (Nat.le_add_right _ _)
    · rw [if_neg hv]; exact h

theorem cleanName_no_markers (nm : Str) (hv : isValidName nm = true) :
    ∀ c ∈ cleanName nm, c ≠ '^' ∧ c ≠ '$' := by
  intro c hc
  unfold cleanName pyTitle at hc
  obtain ⟨x, hx, hcx⟩ := pyTitleGo_mem _ _ _ hc
  have hxm : x ≠ '^' ∧ x ≠ '$' := by
    rcases collapseGo_mem _ _ _ hx with hsp | hx'
    · rw [hsp]
      exact ⟨by decide, by decide⟩
    · have hall : (pyStrip nm).all validNameChar = true := by
        unfold isValidName at hv
        exact (Bool.and_eq_true _ _ |>.mp hv).2
      exact validNameChar_ne_markers x (List.all_eq_true.mp hall x hx')
  rcases hcx with rfl | rfl
  · exact ⟨pyLower_ne_hat _ hxm.1, pyLower_ne_dollar _ hxm.2⟩
  · exact ⟨pyUpper_ne_hat _ hxm.1, pyUpper_ne_dollar _ hxm.2⟩

theorem windows_target_ne_hat (k : Nat) (nm : Str) (hv : isValidName nm = true) :
    ∀ (ctx : Str) (c : Char), (ctx, c) ∈ windows k (paddedForm k (cleanName nm)) → c ≠ '^' := by
  intro ctx c h
  have hmem := windows_target_mem _ _ _ _ h
  rw [paddedForm_drop] at hmem
  rcases List.mem_append.mp hmem with h1 | h1
  · rw [List.mem_map] at h1
    obtain ⟨x, hx, hxe⟩ := h1
    rw [← hxe]
    exact pyLower_ne_hat _ (cleanName_no_markers nm hv x hx).1
  · simp only [List.mem_singleton] at h1
    rw [h1]
    decide

theorem noHat_trainGo : ∀ (pairs : List (Str × Nat)) (m : Model),
    noHatTargets m.chains → noHatTargets (trainGo m pairs).chains := by
  intro pairs
  induction pairs with
  | nil => intro m h; exact h
  | cons p rest ih =>
    intro m h
    obtain ⟨nm, w⟩ := p
    simp only [trainGo]
    refine ih (trainStep m nm w) ?_
    unfold trainStep
    by_cases hv : isValidName nm
    · rw [if_pos hv]
      refine addWindows_forall _ _ h ?_
      intro pr hpr ch' hch'
      have hc : pr.2 ≠ '^' := by
        obtain ⟨cx, c⟩ := pr
        exact windows_target_ne_hat _ _ hv _ _ hpr
      refine chainsAdd_forall _ _ _ _ hch' ?_ ?_
      · intro q hq
        simp only [List.mem_singleton] at hq
        rw [hq]
        exact hc
      · intro key cnt hk
        refine counterAdd_forall _ _ _ hk hc ?_
        intro e we hp
        exact hp
    · rw [if_neg hv]; exact h

theorem chainsGet?_mem : ∀ (ch : Chains) (ctx : Str) (cnt : Counter),
    chainsGet? ch ctx = some cnt → (ctx, cnt) ∈ ch := by
  intro ch ctx cnt h
  induction ch with
  | nil => simp [chainsGet?] at h
  | cons p rest ih =>
    obtain ⟨key, c0⟩ := p
    simp only [chainsGet?] at h
    split at h
    · rename_i hk
      injection h with h
      rw [← hk, ← h]
      exact List.mem_cons_self _ _
    · exact List.mem_cons_of_mem _ (ih h)

theorem tryAlt_false (ch : Chains) (k : Nat) (ctx : Str)
    (hkeys : keysLen ch k) (hctx : ctx.length = k ∨ k = 0) :
    tryAlternativeContext ch ctx = false := by
  unfold tryAlternativeContext
  rw [List.any_eq_false]
  intro i hi
  rw [List.mem_range'_1] at hi
  cases hg : chainsGet? ch (ctx.drop i) with
  | none => simp
  | some cnt =>
    exfalso
    have hmem := chainsGet?_mem _ _ _ hg
    have hlen := hkeys _ hmem
    simp only [List.length_drop] at hlen
    rcases hctx with h | h <;> omega

theorem genLoop_shape (k m : Nat) (sw : Str) :
    ∀ (iters : Nat) (ch : Chains) (name ctx : Str) (rnd : List Nat),
    (genLoop k m sw iters ch name ctx rnd).table = ch
      ∨ ∃ ctx0, (genLoop k m sw iters ch name ctx rnd).table = ch ++ [(ctx0, [])] := by
  intro iters
  induction iters with
  | zero => intro ch name ctx rnd; exact Or.inl rfl
  | succ j ih =>
    intro ch name ctx rnd
    simp only [genLoop]
    split
    · split
      · exact Or.inr ⟨ctx, rfl⟩
      · exact Or.inl rfl
    · split
      · exact Or.inl rfl
      · split
        · exact Or.inl rfl
        · split
          · split
            · exact Or.inl rfl
            · split
              · exact ih ch [] _ _
              · exact Or.inl rfl
          · exact ih ch _ _ _

theorem genLoop_frame (k m : Nat) (sw : Str) :
    ∀ (iters : Nat) (ch : Chains) (name ctx : Str) (rnd : List Nat),
    keysLen ch k → (ctx.length = k ∨ k = 0) →
    (genLoop k m sw iters ch name ctx rnd).table = ch := by
  intro iters
  induction iters with
  | zero => intro ch name ctx rnd _ _; rfl
  | succ j ih =>
    intro ch name ctx rnd hkeys hctx
    simp only [genLoop]
    split
    · split
      · rename_i halt
        rw [tryAlt_false ch k ctx hkeys hctx] at halt
        exact absurd halt (by simp)
      · rfl
    · split
      · rfl
      · split
        · rfl
        · split
          · split
            · rfl
            · split
              · exact ih ch [] _ _ hkeys (Or.inl (List.length_replicate _ _))
              · rfl
          · refine ih ch _ _ _ hkeys ?_
            rcases hctx with h | h
            · simp only [List.length_append, List.length_drop, List.length_singleton]
              omega
            · exact Or.inr h

theorem genLoop_nofail (k m : Nat) (sw : Str) :
    ∀ (iters : Nat) (ch : Chains) (name ctx : Str) (rnd : List Nat) (chf : Chains),
    posTable ch → genLoop k m sw iters ch name ctx rnd ≠ .fail chf := by
  intro iters
  induction iters with
  | zero => intro ch name ctx rnd chf _; simp [genLoop]
  | succ j ih =>
    intro ch name ctx rnd chf hpos
    simp only [genLoop]
    split
    · split <;> simp
    · split
      · simp
      · split
        · rename_i x1 cnt hget hcnt x2 hpick
          exfalso
          have hents : ∀ p ∈ cnt, 0 < p.2 := hpos _ (chainsGet?_mem _ _ _ hget)
          obtain ⟨c, hc⟩ := pickWeighted_total cnt (nextRand rnd).1 hents hcnt
          rw [hc] at hpick
          exact Option.noConfusion hpick
        · split
          · split
            · simp
            · split
              · exact ih ch [] _ _ chf hpos
              · simp
          · exact ih ch _ _ _ chf hpos

theorem genLoop_zero (k : Nat) (sw : Str) :
    ∀ (iters : Nat) (ch : Chains) (name ctx : Str) (rnd : List Nat),
    posTable ch →
    ∃ t ch' rnd', genLoop k 0 sw iters ch name ctx rnd = .done (name ++ t) ch' rnd'
      ∧ t.length ≤ iters := by
  intro iters
  induction iters with
  | zero =>
    intro ch name ctx rnd _
    refine ⟨[], ch, rnd, ?_, Nat.le_refl 0⟩
    rw [List.append_nil]
    rfl
  | succ j ih =>
    intro ch name ctx rnd hpos
    simp only [genLoop]
    split
    · split
      · exact ⟨[], ch ++ [(ctx, [])], rnd, by rw [List.append_nil], Nat.zero_le _⟩
      · exact ⟨[], ch, rnd, by rw [List.append_nil], Nat.zero_le _⟩
    · split
      · exact ⟨[], ch, rnd, by rw [List.append_nil], Nat.zero_le _⟩
      · split
        · rename_i x1 cnt hget hcnt x2 hpick
          exfalso
          have hents : ∀ p ∈ cnt, 0 < p.2 := hpos _ (chainsGet?_mem _ _ _ hget)
          obtain ⟨c, hc⟩ := pickWeighted_total cnt (nextRand rnd).1 hents hcnt
          rw [hc] at hpick
          exact Option.noConfusion hpick
        · split
          · split
            · exact ⟨[], ch, (nextRand rnd).2, by rw [List.append_nil], Nat.zero_le _⟩
            · rename_i hlen
              exact absurd (Nat.zero_le _) hlen
          · rename_i x2 c hpick hdol
            obtain ⟨t, ch', rnd', heq, hle⟩ := ih ch (name ++ [c]) (ctx.drop 1 ++ [c]) (nextRand rnd).2 hpos
            refine ⟨c :: t, ch', rnd', ?_, ?_⟩
            · rw [show name ++ c :: t = (name ++ [c]) ++ t by simp]
              exact heq
            · simp only [List.length_cons]
              omega

theorem genLoop_ext (k m : Nat) (sw : Str) (hsw : sw ≠ []) :
    ∀ (iters : Nat) (ch : Chains) (name ctx : Str) (rnd : List Nat)
      (name' : Str) (ch' : Chains) (rnd' : List Nat),
    genLoop k m sw iters ch name ctx rnd = .done name' ch' rnd' →
    ∃ t, name' = name ++ t := by
  intro iters
  induction iters with
  | zero =>
    intro ch name ctx rnd name' ch' rnd' h
    injection h with h1 _ _
    exact ⟨[], by rw [← h1, List.append_nil]⟩
  | succ j ih =>
    intro ch name ctx rnd name' ch' rnd' h
    simp only [genLoop] at h
    split at h
    · split at h <;> exact ⟨[], by injection h with h1 _ _; rw [← h1, List.append_nil]⟩
    · split at h
      · exact ⟨[], by injection h with h1 _ _; rw [← h1, List.append_nil]⟩
      · split at h
        · exact absurd h (by simp)
        · split at h
          · split at h
            · exact ⟨[], by injection h with h1 _ _; rw [← h1, List.append_nil]⟩
            · exact absurd h (by simp)
          · rename_i x2 c hpick hdol
            obtain ⟨t, ht⟩ := ih _ _ _ _ _ _ _ h
            exact ⟨c :: t, by rw [ht]; simp⟩

theorem genLoop_markers (k m : Nat) (sw : Str) :
    ∀ (iters : Nat) (ch : Chains) (name ctx : Str) (rnd : List Nat)
      (name' : Str) (ch' : Chains) (rnd' : List Nat),
    noHatTargets ch → (∀ c ∈ name, c ≠ '^' ∧ c ≠ '$') →
    genLoop k m sw iters ch name ctx rnd = .done name' ch' rnd' →
    ∀ c ∈ name', c ≠ '^' ∧ c ≠ '$' := by
  intro iters
  induction iters with
  | zero =>
    intro ch name ctx rnd name' ch' rnd' _ hname h
    injection h with h1 _ _
    rw [← h1]
    exact hname
  | succ j ih =>
    intro ch name ctx rnd name' ch' rnd' hnohat hname h
    simp only [genLoop] at h
    split at h
    · split at h <;> (injection h with h1 _ _; rw [← h1]; exact hname)
    · split at h
      · injection h with h1 _ _
        rw [← h1]
        exact hname
      · split at h
        · exact absurd h (by simp)
        · split at h
          · split at h
            · injection h with h1 _ _
              rw [← h1]
              exact hname
            · split at h
              · exact ih ch [] _ _ _ _ _ hnohat (by simp) h
              · exact absurd h (by simp)
          · rename_i x1 cnt hget hcnt x2 c hpick hdol
            refine ih ch (name ++ [c]) _ _ _ _ _ hnohat ?_ h
            intro x hx
            rcases List.mem_append.mp hx with hx1 | hx1
            · exact hname x hx1
            · simp only [List.mem_singleton] at hx1
              rw [hx1]
              obtain ⟨w, hwmem, _⟩ := pickWeighted_mem _ _ _ hpick
              refine ⟨?_, hdol⟩
              exact hnohat _ (chainsGet?_mem _ _ _ hget) _ hwmem

theorem startCtx_length (k : Nat) (sw : Str) : (startCtx k sw).length = k ∨ k = 0 := by
  unfold startCtx
  by_cases hk : k ≤ sw.length
  · rw [if_pos hk]
    by_cases h0 : k = 0
    · exact Or.inr h0
    · rw [if_neg h0]
      left
      rw [List.length_drop]
      omega
  · rw [if_neg hk]
    left
    rw [List.length_append, List.length_replicate]
    omega

theorem posTable_append_empty (ch : Chains) (ctx0 : Str) (h : posTable ch) :
    posTable (ch ++ [(ctx0, [])]) := by
  intro e he
  rcases List.mem_append.mp he with h1 | h1
  · exact h e h1
  · simp only [List.mem_singleton] at h1
    rw [h1]
    intro p hp
    simp at hp

theorem noHat_append_empty (ch : Chains) (ctx0 : Str) (h : noHatTargets ch) :
    noHatTargets (ch ++ [(ctx0, [])]) := by
  intro e he
  rcases List.mem_append.mp he with h1 | h1
  · exact h e h1
  · simp only [List.mem_singleton] at h1
    rw [h1]
    intro p hp
    simp at hp

theorem pyTitleGo_markers (b : Bool) (s : Str) (hs : ∀ c ∈ s, c ≠ '^' ∧ c ≠ '$') :
    ∀ c ∈ pyTitleGo b s, c ≠ '^' ∧ c ≠ '$' := by
  intro c hc
  obtain ⟨x, hx, hcx⟩ := pyTitleGo_mem b s c hc
  rcases hcx with rfl | rfl
  · exact ⟨pyLower_ne_hat _ (hs x hx).1, pyLower_ne_dollar _ (hs x hx).2⟩
  · exact ⟨pyUpper_ne_hat _ (hs x hx).1, pyUpper_ne_dollar _ (hs x hx).2⟩

theorem genAux_ne_err (k M m : Nat) (sw ew : Str) :
    ∀ (fuel : Nat) (ch : Chains) (rnd : List Nat) (e : GenError),
    genAux k M m sw ew fuel ch rnd ≠ .err e := by
  intro fuel
  induction fuel with
  | zero => intro ch rnd e; simp [genAux]
  | succ j ih =>
    intro ch rnd e
    simp only [genAux]
    split
    · simp
    · exact ih _ _ _
    · split
      · exact ih _ _ _
      · split
        · exact ih _ _ _
        · simp

theorem genAux_frame (k M m : Nat) (sw ew : Str) :
    ∀ (fuel : Nat) (ch : Chains) (rnd : List Nat),
    keysLen ch k →
    GenRes.tableOr (genAux k M m sw ew fuel ch rnd) ch = ch := by
  intro fuel
  induction fuel with
  | zero => intro ch rnd _; rfl
  | succ j ih =>
    intro ch rnd hkeys
    have hfr := genLoop_frame k m sw (M - sw.length) ch sw (startCtx k sw) rnd hkeys
      (startCtx_length k sw)
    simp only [genAux]
    split
    · rename_i chf heq
      rw [heq] at hfr
      simp only [LoopRes.table] at hfr
      simp only [GenRes.tableOr]
      exact hfr
    · rename_i chf rndf heq
      rw [heq] at hfr
      simp only [LoopRes.table] at hfr
      rw [hfr]
      exact ih _ _ hkeys
    · rename_i name chf rndf heq
      rw [heq] at hfr
      simp only [LoopRes.table] at hfr
      subst hfr
      split
      · exact ih _ _ hkeys
      · split
        · exact ih _ _ hkeys
        · rfl

theorem genAux_nofail (k M m : Nat) (sw ew : Str) :
    ∀ (fuel : Nat) (ch : Chains) (rnd : List Nat) (chf : Chains),
    posTable ch → genAux k M m sw ew fuel ch rnd ≠ .fail chf := by
  intro fuel
  induction fuel with
  | zero => intro ch rnd chf _; simp [genAux]
  | succ j ih =>
    intro ch rnd chf hpos
    have hshape := genLoop_shape k m sw (M - sw.length) ch sw (startCtx k sw) rnd
    simp only [genAux]
    split
    · rename_i chf' heq
      exact absurd heq (genLoop_nofail k m sw _ ch sw _ rnd chf' hpos)
    · rename_i chf' rndf heq
      rw [heq] at hshape
      simp only [LoopRes.table] at hshape
      have hpos' : posTable chf' := by
        rcases hshape with h1 | ⟨ctx0, h1⟩
        · rw [h1]; exact hpos
        · rw [h1]; exact posTable_append_empty ch ctx0 hpos
      exact ih _ _ chf hpos'
    · rename_i name chf' rndf heq
      rw [heq] at hshape
      simp only [LoopRes.table] at hshape
      have hpos' : posTable chf' := by
        rcases hshape with h1 | ⟨ctx0, h1⟩
        · rw [h1]; exact hpos
        · rw [h1]; exact posTable_append_empty ch ctx0 hpos
      split
      · exact ih _ _ chf hpos'
      · split
        · exact ih _ _ chf hpos'
        · simp

theorem genAux_suffix (k M m : Nat) (sw ew : Str) (hew : ew ≠ []) :
    ∀ (fuel : Nat) (ch : Chains) (rnd : List Nat) (s : Str) (ch' : Chains),
    genAux k M m sw ew fuel ch rnd = .out s ch' →
    strEndsWith (List.map pyLower s) ew = true := by
  intro fuel
  induction fuel with
  | zero => intro ch rnd s ch' h; exact absurd h (by simp [genAux])
  | succ j ih =>
    intro ch rnd s ch' h
    simp only [genAux] at h
    split at h
    · exact absurd h (by simp)
    · exact ih _ _ _ _ h
    · split at h
      · exact ih _ _ _ _ h
      · split at h
        · exact ih _ _ _ _ h
        · rename_i name chf rndf heq hnil hcond
          injection h with hs hch
          have hA : pyTitle name ≠ [] := by
            intro hh
            apply hnil
            have hlen := pyTitleGo_length false name
            rw [show pyTitleGo false name = pyTitle name from rfl, hh] at hlen
            exact (List.eq_nil_of_length_eq_zero hlen.symm)
          cases hx : strEndsWith (List.map pyLower (pyTitle name)) ew with
          | false => exact absurd ⟨hA, hew, hx⟩ hcond
          | true =>
            rw [← hs]
            exact hx

theorem genAux_seeded (k M m : Nat) (sw ew : Str) (hsw : sw ≠ []) :
    ∀ (fuel : Nat) (ch : Chains) (rnd : List Nat) (s : Str) (ch' : Chains),
    genAux k M m sw ew fuel ch rnd = .out s ch' →
    ∃ t, List.map pyLower s = List.map pyLower sw ++ t := by
  intro fuel
  induction fuel with
  | zero => intro ch rnd s ch' h; exact absurd h (by simp [genAux])
  | succ j ih =>
    intro ch rnd s ch' h
    simp only [genAux] at h
    split at h
    · exact absurd h (by simp)
    · exact ih _ _ _ _ h
    · split at h
      · exact ih _ _ _ _ h
      · split at h
        · exact ih _ _ _ _ h
        · rename_i name chf rndf heq hnil hcond
          injection h with hs hch
          obtain ⟨t, ht⟩ := genLoop_ext k m sw hsw _ ch sw _ rnd name chf rndf heq
          refine ⟨List.map pyLower t, ?_⟩
          rw [← hs]
          show List.map pyLower (pyTitleGo false name) = _
          rw [pyTitleGo_map_pyLower, ht, List.map_append]

theorem genAux_markers (k M m : Nat) (sw ew : Str)
    (hswm : ∀ c ∈ sw, c ≠ '^' ∧ c ≠ '$') :
    ∀ (fuel : Nat) (ch : Chains) (rnd : List Nat) (s : Str) (ch' : Chains),
    noHatTargets ch →
    genAux k M m sw ew fuel ch rnd = .out s ch' →
    ∀ c ∈ s, c ≠ '^' ∧ c ≠ '$' := by
  intro fuel
  induction fuel with
  | zero => intro ch rnd s ch' _ h; exact absurd h (by simp [genAux])
  | succ j ih =>
    intro ch rnd s ch' hnohat h
    have hshape := genLoop_shape k m sw (M - sw.length) ch sw (startCtx k sw) rnd
    simp only [genAux] at h
    split at h
    · exact absurd h (by simp)
    · rename_i chf rndf heq
      rw [heq] at hshape
      simp only [LoopRes.table] at hshape
      have hnohat' : noHatTargets chf := by
        rcases hshape with h1 | ⟨ctx0, h1⟩
        · rw [h1]; exact hnohat
        · rw [h1]; exact noHat_append_empty ch ctx0 hnohat
      exact ih _ _ _ _ hnohat' h
    · rename_i name chf rndf heq
      rw [heq] at hshape
      simp only [LoopRes.table] at hshape
      have hnohat' : noHatTargets chf := by
        rcases hshape with h1 | ⟨ctx0, h1⟩
        · rw [h1]; exact hnohat
        · rw [h1]; exact noHat_append_empty ch ctx0 hnohat
      split at h
      · exact ih _ _ _ _ hnohat' h
      · split at h
        · exact ih _ _ _ _ hnohat' h
        · injection h with hs hch
          have hname := genLoop_markers k m sw _ ch sw _ rnd name chf rndf hnohat hswm heq
          rw [← hs]
          exact pyTitleGo_markers false name hname

theorem map_pyLower_idem (s : Str) :
    List.map pyLower (List.map pyLower s) = List.map pyLower s := by
  induction s with
  | nil => rfl
  | cons c rest ih => simp [pyLower_pyLower, ih]

theorem trainGo_filter : ∀ (pairs : List (Str × Nat)) (m : Model),
    trainGo m pairs = trainGo m (pairs.filter (fun p => isValidName p.1)) := by
  intro pairs
  induction pairs with
  | nil => intro m; rfl
  | cons p rest ih =>
    intro m
    obtain ⟨nm, w⟩ := p
    by_cases hv : isValidName nm
    · rw [List.filter_cons, if_pos (by simpa using hv)]
      simp only [trainGo]
      exact ih (trainStep m nm w)
    · rw [List.filter_cons, if_neg (by simpa using hv)]
      simp only [trainGo]
      rw [show trainStep m nm w = m by unfold trainStep; rw [if_neg hv]]
      exact ih m

theorem genAux_succ_done (k M m : Nat) (sw ew : Str) (fuel : Nat) (ch chf : Chains)
    (rnd rndf : List Nat) (name : Str)
    (hloop : genLoop k m sw (M - sw.length) ch sw (startCtx k sw) rnd = .done name chf rndf)
    (hname : ¬ name = [])
    (hcond : ¬(pyTitle name ≠ [] ∧ ew ≠ [] ∧
        strEndsWith (List.map pyLower (pyTitle name)) ew = false)) :
    genAux k M m sw ew (fuel + 1) ch rnd = .out (pyTitle name) chf := by
  simp only [genAux]
  rw [hloop]
  dsimp only
  rw [if_neg hname, if_neg hcond]

/-- C1: the claim says that in generate, a context of length k that is
absent from the table but has a strict suffix present is handled by
sampling the next character from the longest such shorter context's
distribution.  The code does not do this: _try_alternative_context only
reports that a shorter context exists, generate then reads the defaultdict
at the missing full-length context, obtains a freshly inserted empty
Counter and breaks.  Evaluated here: order 2, table with the single
length-1 key "a", start string "ba" giving the absent context "ba" whose
strict suffix "a" is in the table; the call returns the bare "Ba" with no
character appended, and the table has gained the empty entry "ba". -/
theorem C1_backoffStops :
    generate 2 [(['a'], [('b', 1)])] 5 0 ['b', 'a'] [] 1 []
      = .out ['B', 'a'] [(['a'], [('b', 1)]), (['b', 'a'], [])] := by rfl

/-- C3: the claim says re-training with the identical corpus yields the
same transition table and retained-name list as a single training run.
The code resets self.names but not self.chains, so a second train call
doubles every stored weight while the name list is rebuilt identically.
Evaluated here: order 1, corpus [("ab", 2)]; after the first train every
weight is 2, after the second every weight is 4. -/
theorem C3_retrainDoubles :
    train (initModel 1) [['a', 'b']] (some [2])
        = .ok { order := 1
                chains := [(['^'], [('a', 2)]), (['a'], [('b', 2)]), (['b'], [('$', 2)])]
                names := [['A', 'b']] }
    ∧ train { order := 1
              chains := [(['^'], [('a', 2)]), (['a'], [('b', 2)]), (['b'], [('$', 2)])]
              names := [['A', 'b']] } [['a', 'b']] (some [2])
        = .ok { order := 1
                chains := [(['^'], [('a', 4)]), (['a'], [('b', 4)]), (['b'], [('$', 4)])]
                names := [['A', 'b']] } := ⟨rfl, rfl⟩

/-- C7 counterexample: the claim equates each stored weight with the sum
of the weights of the examples whose padded form contains the window,
each example counted once.  Training on the single example ("aaa", 1)
with order 1 stores weight 2 for the window ("a", 'a') because the padded
form "^aaa$" contains that window twice, while the claim's per-example
sum is 1. -/
theorem C7_weightCounterexample :
    train (initModel 1) [['a', 'a', 'a']] (some [1])
        = .ok (trainGo (initModel 1) [(['a', 'a', 'a'], 1)])
    ∧ chainsWeight (trainGo (initModel 1) [(['a', 'a', 'a'], 1)]).chains ['a'] 'a' = 2
    ∧ exampleWeight 1 [(['a', 'a', 'a'], 1)] ['a'] 'a' = 1
    ∧ (2 : Nat) ≠ 1 := ⟨rfl, rfl, rfl, by decide⟩

/-- C7 (amended): after train on a corpus with positive weights, every key
of the transition table has length exactly k, every stored weight is
positive, and the weight stored for a window equals the sum over the valid
examples of the example weight times the number of occurrences of that
window in the example's padded form. -/
theorem C7_tableInvariant (k : Nat) (names : List Str) (ws : List Nat) (md : Model)
    (hlen : names.length = ws.length) (hpos : ∀ w ∈ ws, 0 < w)
    (htr : train (initModel k) names (some ws) = .ok md) :
    keysLen md.chains k ∧ posTable md.chains
    ∧ ∀ (ctx : Str) (c : Char),
        chainsWeight md.chains ctx c = windowWeight k (names.zip ws) ctx c := by
  unfold train at htr
  dsimp only at htr
  rw [if_pos hlen] at htr
  injection htr with htr
  subst htr
  refine ⟨?_, ?_, ?_⟩
  · exact keysLen_trainGo (names.zip ws) _ (fun e he => absurd he (List.not_mem_nil _))
  · refine posTable_trainGo (names.zip ws) _ (fun e he => absurd he (List.not_mem_nil _)) ?_
    intro p hp
    exact hpos p.2 (List.of_mem_zip hp).2
  · intro ctx c
    rw [chainsWeight_trainGo]
    show 0 + windowWeight k (names.zip ws) ctx c = windowWeight k (names.zip ws) ctx c
    exact Nat.zero_add _

/-- C7 witness at a concrete input: order 1, corpus [("ab", 2)]. -/
theorem C7_tableInvariant_w :
    chainsWeight (trainGo (initModel 1) [(['a', 'b'], 2)]).chains ['a'] 'b'
      = windowWeight 1 [(['a', 'b'], 2)] ['a'] 'b' :=
  (C7_tableInvariant 1 [['a', 'b']] [2] (trainGo (initModel 1) [(['a', 'b'], 2)])
    rfl (by decide) rfl).2.2 ['a'] 'b'

/-- C9: train never raises because of an example whose name has characters
outside the allowed alphabet; such an example contributes neither to the
transition table nor to the retained-name list, and the remaining examples
are processed exactly as if the invalid ones were absent: the result of
train equals training on the corpus with the invalid examples filtered
out, and it is a normal result, not an error. -/
theorem C9_invalidSkipped (k : Nat) (names : List Str) (ws : List Nat)
    (hlen : names.length = ws.length) :
    train (initModel k) names (some ws)
      = .ok (trainGo (initModel k)
          ((names.zip ws).filter (fun p => isValidName p.1))) := by
  unfold train
  dsimp only
  rw [if_pos hlen]
  exact congrArg Except.ok (trainGo_filter (names.zip ws) _)

/-- C9 witness at a concrete input: the second example contains the
invalid character and is filtered; the first is processed. -/
theorem C9_invalidSkipped_w :
    train (initModel 1) [['a'], ['a', '%']] (some [1, 2])
      = .ok (trainGo (initModel 1)
          (([(['a'], 1), (['a', '%'], 2)] : List (Str × Nat)).filter
            (fun p => isValidName p.1))) :=
  C9_invalidSkipped 1 [['a'], ['a', '%']] [1, 2] rfl

/-- C2: for every trained model, a generate call leaves the transition
table unchanged, whatever its outcome: the keys of a trained table all
have length k, so no strict suffix of the sliding context is ever present,
_try_alternative_context always reports false, and the defaultdict read
that could insert an empty entry is never reached. -/
theorem C2_tableStable (k : Nat) (pairs : List (Str × Nat)) (M m : Nat) (sw ew : Str)
    (fuel : Nat) (rnd : List Nat) :
    GenRes.tableOr
        (generate k (trainGo (initModel k) pairs).chains M m sw ew fuel rnd)
        (trainGo (initModel k) pairs).chains
      = (trainGo (initModel k) pairs).chains := by
  have hkeys : keysLen (trainGo (initModel k) pairs).chains k :=
    keysLen_trainGo pairs (initModel k) (fun e he => absurd he (List.not_mem_nil _))
  unfold generate
  split
  · rfl
  · split
    · rfl
    · split
      · rfl
      · exact genAux_frame _ _ _ _ _ _ _ _ hkeys

/-- C5: whenever generate is called with a non-empty suffix consisting of
letters of the allowed alphabet and returns a string, that string ends
with the suffix case-insensitively: the source retries the whole call
until the lowercased result ends with the cleaned (lowercased) suffix. -/
theorem C5_suffixRespected (k : Nat) (ch : Chains) (M m : Nat) (sw ew : Str)
    (fuel : Nat) (rnd : List Nat) (s : Str) (ch' : Chains)
    (hewL : ew.all isNameLetter = true) (hewne : ew ≠ [])
    (h : generate k ch M m sw ew fuel rnd = .out s ch') :
    strEndsWith (List.map pyLower s) (List.map pyLower ew) = true := by
  have hclean : cleanArg ew = List.map pyLower ew := cleanArg_letters ew hewL
  have hne : cleanArg ew ≠ [] := by
    rw [hclean]
    intro hx
    exact hewne (List.map_eq_nil_iff.mp hx)
  unfold generate at h
  split at h
  · exact absurd h (by simp)
  · split at h
    · exact absurd h (by simp)
    · split at h
      · exact absurd h (by simp)
      · have hs := genAux_suffix k M m (cleanArg sw) (cleanArg ew) hne fuel ch rnd s ch' h
        rw [hclean] at hs
        exact hs

/-- C5 witness: a table trained towards "o", suffix "o", returning "Ao". -/
theorem C5_suffixRespected_w :
    strEndsWith (List.map pyLower (['A', 'o'] : Str)) (List.map pyLower (['o'] : Str)) = true :=
  C5_suffixRespected 1
    [(['^'], [('a', 1)]), (['a'], [('o', 1)]), (['o'], [('$', 1)])]
    5 0 [] ['o'] 2 [0, 0, 0] ['A', 'o']
    [(['^'], [('a', 1)]), (['a'], [('o', 1)]), (['o'], [('$', 1)])]
    (by decide) (by decide) (by rfl)

/-- C6: whenever generate is called with a non-empty prefix consisting of
letters of the allowed alphabet and returns a string, that string starts
with the prefix case-insensitively: the in-progress name is seeded with
the cleaned prefix (the initial context being the last k characters of the
prefix, left-padded with start markers when shorter than k, which is the
definition of startCtx) and characters are only ever appended after it. -/
theorem C6_seedRespected (k : Nat) (ch : Chains) (M m : Nat) (sw ew : Str)
    (fuel : Nat) (rnd : List Nat) (s : Str) (ch' : Chains)
    (hswL : sw.all isNameLetter = true) (hswne : sw ≠ [])
    (h : generate k ch M m sw ew fuel rnd = .out s ch') :
    ∃ t, List.map pyLower s = List.map pyLower sw ++ t := by
  have hclean : cleanArg sw = List.map pyLower sw := cleanArg_letters sw hswL
  have hne : cleanArg sw ≠ [] := by
    rw [hclean]
    intro hx
    exact hswne (List.map_eq_nil_iff.mp hx)
  unfold generate at h
  split at h
  · exact absurd h (by simp)
  · split at h
    · exact absurd h (by simp)
    · split at h
      · exact absurd h (by simp)
      · obtain ⟨t, ht⟩ := genAux_seeded k M m (cleanArg sw) (cleanArg ew) hne fuel ch rnd s ch' h
        refine ⟨t, ?_⟩
        rw [ht, hclean, map_pyLower_idem]

/-- C6 witness: prefix "a" against a table trained on "ao", returning "Ao". -/
theorem C6_seedRespected_w :
    ∃ t, List.map pyLower (['A', 'o'] : Str) = List.map pyLower (['a'] : Str) ++ t :=
  C6_seedRespected 1
    [(['^'], [('a', 1)]), (['a'], [('o', 1)]), (['o'], [('$', 1)])]
    3 0 ['a'] [] 1 [0, 0] ['A', 'o']
    [(['^'], [('a', 1)]), (['a'], [('o', 1)]), (['o'], [('$', 1)])]
    (by decide) (by decide) (by rfl)

/-- C8: generate reports ModelNotTrained exactly when the transition table
is empty; and on a non-empty table with positive weights and valid (or
empty) start and end strings, no error is reported: neither a validation
error nor the ValueError of a weighted draw over a zero total. -/
theorem C8_errorContract (k : Nat) (ch : Chains) (M m : Nat) (sw ew : Str)
    (fuel : Nat) (rnd : List Nat) :
    (generate k ch M m sw ew fuel rnd = .err .modelNotTrained ↔ ch = [])
    ∧ (ch ≠ [] → posTable ch →
       (cleanArg sw = [] ∨ isValidNamePart (cleanArg sw) = true) →
       (cleanArg ew = [] ∨ isValidNamePart (cleanArg ew) = true) →
       ∀ (e : GenError) (chf : Chains),
         generate k ch M m sw ew fuel rnd ≠ .err e
         ∧ generate k ch M m sw ew fuel rnd ≠ .fail chf) := by
  constructor
  · constructor
    · intro h
      by_contra hch
      unfold generate at h
      rw [if_neg hch] at h
      split at h
      · simp at h
      · split at h
        · simp at h
        · exact absurd h (genAux_ne_err _ _ _ _ _ _ _ _ _)
    · intro h
      unfold generate
      rw [if_pos h]
  · intro hch hpos hsw hew e chf
    have hswc : ¬ (cleanArg sw ≠ [] ∧ isValidNamePart (cleanArg sw) = false) := by
      rcases hsw with h1 | h1
      · exact fun hc => hc.1 h1
      · intro hc
        rw [h1] at hc
        exact Bool.noConfusion hc.2
    have hewc : ¬ (cleanArg ew ≠ [] ∧ isValidNamePart (cleanArg ew) = false) := by
      rcases hew with h1 | h1
      · exact fun hc => hc.1 h1
      · intro hc
        rw [h1] at hc
        exact Bool.noConfusion hc.2
    unfold generate
    rw [if_neg hch, if_neg hswc, if_neg hewc]
    exact ⟨genAux_ne_err _ _ _ _ _ _ _ _ _, genAux_nofail _ _ _ _ _ _ _ _ _ hpos⟩

/-- C8 witness at a concrete input: a one-entry trained-shaped table with
positive weight and empty constraints never reports ModelNotTrained. -/
theorem C8_errorContract_w :
    generate 1 [(['^'], [('a', 1)])] 3 0 [] [] 1 [] ≠ .err .modelNotTrained :=
  ((C8_errorContract 1 [(['^'], [('a', 1)])] 3 0 [] [] 1 []).2
    (by decide) (by unfold posTable; decide) (Or.inl rfl) (Or.inl rfl)
    .modelNotTrained [(['^'], [('a', 1)])]).1

/-- C10: a string returned by generate on a trained model contains neither
the start marker nor the end marker: a sampled end marker only stops or
restarts generation without being appended, the start marker never occurs
as a stored transition target of a trained table, and the validated start
string consists of letters only. -/
theorem C10_noMarkers (k : Nat) (pairs : List (Str × Nat)) (M m : Nat) (sw ew : Str)
    (fuel : Nat) (rnd : List Nat) (s : Str) (ch' : Chains)
    (h : generate k (trainGo (initModel k) pairs).chains M m sw ew fuel rnd = .out s ch') :
    ∀ c ∈ s, c ≠ '^' ∧ c ≠ '$' := by
  have hnohat : noHatTargets (trainGo (initModel k) pairs).chains :=
    noHat_trainGo pairs (initModel k) (fun e he => absurd he (List.not_mem_nil _))
  unfold generate at h
  split at h
  · exact absurd h (by simp)
  · split at h
    · exact absurd h (by simp)
    · split at h
      · exact absurd h (by simp)
      · rename_i hne hswv hewv
        have hswm : ∀ c ∈ cleanArg sw, c ≠ '^' ∧ c ≠ '$' := by
          by_cases hnil : cleanArg sw = []
          · rw [hnil]
            intro c hc
            simp at hc
          · have hval : isValidNamePart (cleanArg sw) = true := by
              cases hvb : isValidNamePart (cleanArg sw) with
              | false => exact absurd ⟨hnil, hvb⟩ hswv
              | true => rfl
            unfold isValidNamePart at hval
            have hall := (Bool.and_eq_true _ _ |>.mp hval).2
            rw [show pyStrip (cleanArg sw) = cleanArg sw from
              pyStrip_idem (List.map pyLower sw)] at hall
            intro c hc
            exact isNameLetter_ne_markers c (List.all_eq_true.mp hall c hc)
        exact genAux_markers k M m (cleanArg sw) (cleanArg ew) hswm fuel _ rnd s ch' hnohat h

/-- C10 witness: training on "ab" with order 1 and generating yields "Ab",
whose two characters are not boundary markers. -/
theorem C10_noMarkers_w :
    (('A' : Char) ≠ '^' ∧ ('A' : Char) ≠ '$') ∧ (('b' : Char) ≠ '^' ∧ ('b' : Char) ≠ '$') :=
  ⟨C10_noMarkers 1 [(['a', 'b'], 1)] 5 0 [] [] 1 [0, 0, 0] ['A', 'b']
      (trainGo (initModel 1) [(['a', 'b'], 1)]).chains (by rfl) 'A' (by decide),
   C10_noMarkers 1 [(['a', 'b'], 1)] 5 0 [] [] 1 [0, 0, 0] ['A', 'b']
      (trainGo (initModel 1) [(['a', 'b'], 1)]).chains (by rfl) 'b' (by decide)⟩

/-- C4 counterexample: the claim bounds the returned string's length by
max_length even for a prefix longer than max_length.  With the trained
order-2 model on "ab", max_length 2, min_length 0 and prefix "abc", the
stepping loop runs zero times and generate returns "Abc" of length 3. -/
theorem C4_lengthCounterexample :
    generate 2 (trainGo (initModel 2) [(['a', 'b'], 1)]).chains 2 0 ['a', 'b', 'c'] [] 1 []
      = .out ['A', 'b', 'c'] (trainGo (initModel 2) [(['a', 'b'], 1)]).chains
    ∧ ¬ ((['A', 'b', 'c'] : Str).length ≤ 2) := ⟨rfl, by decide⟩

/-- C4 (amended): with min_length 0 and no suffix, generate terminates in
a single call with no retry, returning a string of length at most the
larger of max_length and the cleaned prefix's length, provided the table
is non-empty with positive weights and either a non-empty valid prefix is
supplied, or max_length is at least 1 and the start context of k start
markers has a non-empty distribution that does not contain the end
marker.  (The original bound of max_length alone fails for a prefix
longer than max_length, and without a prefix a call with max_length 0
recurses forever.) -/
theorem C4_boundedRun (k : Nat) (ch : Chains) (M : Nat) (sw : Str) (rnd : List Nat)
    (hch : ch ≠ []) (hpos : posTable ch)
    (hstart : (cleanArg sw ≠ [] ∧ isValidNamePart (cleanArg sw) = true)
      ∨ (cleanArg sw = [] ∧ 1 ≤ M
         ∧ ∃ cnt, chainsGet? ch (List.replicate k '^') = some cnt ∧ cnt ≠ []
             ∧ ∀ p ∈ cnt, p.1 ≠ '$')) :
    ∃ s ch', generate k ch M 0 sw [] 1 rnd = .out s ch'
      ∧ s.length ≤ max M (cleanArg sw).length := by
  have hswv : ¬ (cleanArg sw ≠ [] ∧ isValidNamePart (cleanArg sw) = false) := by
    rcases hstart with ⟨h1, h2⟩ | ⟨h1, _⟩
    · intro hc
      rw [h2] at hc
      exact Bool.noConfusion hc.2
    · intro hc
      exact hc.1 h1
  unfold generate
  rw [if_neg hch, if_neg hswv, if_neg (fun hc => hc.1 rfl)]
  rcases hstart with ⟨h1, _⟩ | ⟨h1, hM, cnt, hcnt, hcne, hnodol⟩
  · obtain ⟨t, ch2, rnd2, hloop, hle⟩ :=
      genLoop_zero k (cleanArg sw) (M - (cleanArg sw).length) ch (cleanArg sw)
        (startCtx k (cleanArg sw)) rnd hpos
    have hname : ¬ (cleanArg sw ++ t) = [] := by
      intro hh
      exact h1 (List.append_eq_nil.mp hh).1
    refine ⟨pyTitle (cleanArg sw ++ t), ch2, ?_, ?_⟩
    · exact genAux_succ_done k M 0 (cleanArg sw) [] 0 ch ch2 rnd rnd2 _ hloop hname
        (fun hc => hc.2.1 rfl)
    · have hlen : (pyTitle (cleanArg sw ++ t)).length
          = (cleanArg sw).length + t.length := by
        show (pyTitleGo false _).length = _
        rw [pyTitleGo_length, List.length_append]
      rw [hlen]
      omega
  · obtain ⟨M0, hM0⟩ : ∃ M0, M = M0 + 1 := ⟨M - 1, by omega⟩
    subst hM0
    have hstart0 : startCtx k ([] : Str) = List.replicate k '^' := by
      unfold startCtx
      by_cases h0 : k = 0
      · subst h0; rfl
      · rw [if_neg (by simp only [List.length_nil]; omega), List.append_nil]
        simp
    have hents : ∀ p ∈ cnt, 0 < p.2 := hpos _ (chainsGet?_mem _ _ _ hcnt)
    obtain ⟨c0, hc0⟩ := pickWeighted_total cnt (nextRand rnd).1 hents hcne
    have hc0dol : ¬ c0 = '$' := by
      obtain ⟨w, hwmem, _⟩ := pickWeighted_mem _ _ _ hc0
      exact hnodol _ hwmem
    have hfirst : genLoop k 0 ([] : Str) (M0 + 1) ch [] (List.replicate k '^') rnd
        = genLoop k 0 [] M0 ch [c0]
            ((List.replicate k '^').drop 1 ++ [c0]) (nextRand rnd).2 := by
      simp only [genLoop]
      rw [hcnt]
      dsimp only
      rw [if_neg hcne, hc0]
      dsimp only
      rw [if_neg hc0dol]
      rfl
    obtain ⟨t, ch2, rnd2, hloop2, hle2⟩ :=
      genLoop_zero k ([] : Str) M0 ch [c0]
        ((List.replicate k '^').drop 1 ++ [c0]) (nextRand rnd).2 hpos
    rw [h1]
    refine ⟨pyTitle ([c0] ++ t), ch2, ?_, ?_⟩
    · refine genAux_succ_done k (M0 + 1) 0 [] [] 0 ch ch2 rnd rnd2 ([c0] ++ t) ?_
        (by simp) (fun hc => hc.2.1 rfl)
      simp only [List.length_nil, Nat.sub_zero]
      rw [hstart0, hfirst]
      exact hloop2
    · have hlen : (pyTitle ([c0] ++ t)).length = 1 + t.length := by
        show (pyTitleGo false _).length = _
        rw [pyTitleGo_length, List.length_append, List.length_singleton]
      rw [hlen]
      simp only [List.length_nil]
      omega

/-- C4 witness: order 1, a trained-shaped table, max_length 2, prefix
"abc" longer than max_length: a single call returns "Abc" of length 3,
within the amended bound max 2 3. -/
theorem C4_boundedRun_w :
    ∃ s ch', generate 1 [(['^'], [('a', 1)]), (['a'], [('b', 1)]), (['b'], [('$', 1)])]
        2 0 ['a', 'b', 'c'] [] 1 [] = .out s ch'
      ∧ s.length ≤ max 2 (cleanArg ['a', 'b', 'c']).length :=
  C4_boundedRun 1 [(['^'], [('a', 1)]), (['a'], [('b', 1)]), (['b'], [('$', 1)])]
    2 ['a', 'b', 'c'] [] (by decide) (by unfold posTable; decide)
    (Or.inl (by decide))
